import Mathlib

/-!
Verification of the GBIF taxonomic visualization core logic.

This file embeds, in Lean, the data model and the operations of the
visualization scripts: the multi-level taxonomy variant (functions
`filterTaxonomicData`, `toggleExpansion`, `renderTaxonomicLevel`,
`getTermColor`, `getDisplayName`, `getPreviousLevel`), and the
kingdom/phylum details variant (its `getDisplayName`).

JavaScript `Map` objects (insertion-ordered, unique keys) are embedded as
association lists; JavaScript strings are Lean `String`s, and the string
operations the code uses (`split(':')[0]`, `startsWith`, `indexOf` on an
array of level names) are embedded over `String.data` character lists.
JavaScript numbers holding integer counts are embedded as `Int` (with the
JavaScript truthiness of a count being the test against 0), and the
floating-point width arithmetic of the logarithmic layout is idealized
over the real numbers.
-/

/-- Association-list embedding of JavaScript `Map.get` / object indexing:
the value stored at `k`, if present. -/
def jsLookup {β : Type} : List (String × β) → String → Option β
  | [], _ => none
  | (k', v) :: rest, k => if k' == k then some v else jsLookup rest k

/-- Embedding of JavaScript `Map.set`: update the value in place if the key
is present (keeping insertion order), otherwise append a new entry. -/
def jsMapSet {β : Type} (m : List (String × β)) (k : String) (v : β) : List (String × β) :=
  if m.any (fun e => e.1 == k) then
    m.map (fun e => if e.1 == k then (e.1, v) else e)
  else
    m ++ [(k, v)]

/-- JavaScript truthiness of a number read out of a `Map`: `undefined`
(absent) and `0` are falsy, every other integer is truthy. -/
def jsTruthy : Option Int → Bool
  | some n => n != 0
  | none => false

/-- The ordered taxonomy levels, from `const TAXONOMY_LEVELS = [...]`. -/
def TAXONOMY_LEVELS : List String :=
  ["kingdom", "phylum", "class", "order", "family", "genus", "species"]

/-- Embedding of JavaScript `Array.prototype.indexOf`: the index of the
first occurrence of `s`, or `-1` if absent. -/
def jsIndexOf : List String → String → Int
  | [], _ => -1
  | a :: rest, s =>
    if a == s then 0
    else
      let r := jsIndexOf rest s
      if r == -1 then -1 else r + 1

/-- Embedding of JavaScript `str.split(':')[0]`: the characters before the
first colon (the whole string if it has no colon). -/
def splitHead (s : String) : String :=
  ⟨s.data.takeWhile (fun c => c != ':')⟩

/-- The expansion-map key `` `${level}:${name}` ``. -/
def keyOf (level name : String) : String :=
  level ++ ":" ++ name

/-- Embedding of JavaScript `String.prototype.startsWith`. -/
def jsStartsWith (s pre : String) : Bool :=
  pre.data.isPrefixOf s.data

/-- Embedding of `getPreviousLevel` from the taxonomy-tree variant:
`index > 0 ? TAXONOMY_LEVELS[index - 1] : null`. -/
def getPreviousLevel (level : String) : Option String :=
  let index := jsIndexOf TAXONOMY_LEVELS level
  if index > 0 then some (TAXONOMY_LEVELS.getD (index - 1).toNat "") else none

/-- One row of a per-level aggregate table.  The JavaScript rows are
dynamic objects keyed by the level name (`d[level]`) and the parent level
name (`d[parentLevel]`); here they are a uniform record with those two
fields named `name` and `parent`. -/
structure TaxonRecord where
  name : String
  parent : Option String
  occurrence_count : Int
  individual_count : Int
deriving DecidableEq, Repr

/-- The `taxonomyData` object: one table per taxonomy-level name. -/
abbrev TaxonomyData : Type := List (String × List TaxonRecord)

/-- Reading `taxonomyData[level]` (an absent level reads as the empty
table). -/
def getTable (td : TaxonomyData) (level : String) : List TaxonRecord :=
  (jsLookup td level).getD []

/-- Replacing the contents of the table stored at `level`; this models the
in-place reordering performed by `Array.prototype.sort` on the stored
array. -/
def setTable (td : TaxonomyData) (level : String) (t : List TaxonRecord) : TaxonomyData :=
  td.map (fun e => if e.1 == level then (e.1, t) else e)

/-- The comparator `(a, b) => +b.occurrence_count - +a.occurrence_count`
as a relation: `a` precedes `b` when `a`'s count is at least `b`'s. -/
def countDesc (a b : TaxonRecord) : Prop :=
  b.occurrence_count ≤ a.occurrence_count

instance : DecidableRel countDesc := fun a b =>
  inferInstanceAs (Decidable (b.occurrence_count ≤ a.occurrence_count))

instance : IsTotal TaxonRecord countDesc :=
  ⟨fun a b => Int.le_total b.occurrence_count a.occurrence_count⟩

instance : IsTrans TaxonRecord countDesc :=
  ⟨fun _ _ _ hab hbc => le_trans hbc hab⟩

/-- Embedding of `arr.sort((a, b) => +b.occurrence_count - +a.occurrence_count)`:
ECMAScript `Array.prototype.sort` is a stable sort, so it is embedded as a
stable insertion sort for the descending-count comparator. -/
def sortJS (l : List TaxonRecord) : List TaxonRecord :=
  List.insertionSort countDesc l

/-- `d3.sum(data, d => +d.occurrence_count)`. -/
def sumOccurrences (data : List TaxonRecord) : Int :=
  (data.map (fun d => d.occurrence_count)).sum

/-- `d3.sum(data, d => +(d.individual_count || 0))`. -/
def sumIndividuals (data : List TaxonRecord) : Int :=
  (data.map (fun d => d.individual_count)).sum

/-- The synthesized species residual record
`{species: 'Other species', occurrence_count: remainder, individual_count: 0, [parentLevel]: parent}`. -/
def otherSpeciesRecord (parent : String) (remainder : Int) : TaxonRecord :=
  ⟨"Other species", some parent, remainder, 0⟩

/-- The sorted children before the species residual: the whole level table
when `parent` is absent, else the rows whose parent field matches. -/
def childrenCore (td : TaxonomyData) (level : String) (parent : Option String) : List TaxonRecord :=
  match parent with
  | none => sortJS (getTable td level)
  | some p => sortJS ((getTable td level).filter (fun d => d.parent == some p))

/-- Embedding of `filterTaxonomicData(level, parent)` from the
taxonomy-tree variant.  The call without a parent sorts the stored table
in place (JavaScript `sort` mutates), so the function returns the result
together with the updated tables. -/
def filterTaxonomicData (td : TaxonomyData) (level : String) (parent : Option String) :
    List TaxonRecord × TaxonomyData :=
  match parent with
  | none =>
    let sorted := sortJS (getTable td level)
    (sorted, setTable td level sorted)
  | some p =>
    let filteredData := sortJS ((getTable td level).filter (fun d => d.parent == some p))
    if level == "species" then
      match getPreviousLevel level with
      | some parentLevel =>
        match (getTable td parentLevel).find? (fun d => d.name == p) with
        | some parentRecord =>
          let speciesSum := sumOccurrences filteredData
          let remainder := parentRecord.occurrence_count - speciesSum
          if remainder > 0 then
            (filteredData ++ [otherSpeciesRecord p remainder], td)
          else
            (filteredData, td)
        | none => (filteredData, td)
      | none => (filteredData, td)
    else
      (filteredData, td)

/-- The expansion state `expandedNodes`: a `Map` from `"level:name"` keys
to the occurrence count captured at expansion time. -/
abbrev ExpState : Type := List (String × Int)

/-- Embedding of `toggleExpansion(level, name, occurrenceCount)`. -/
def toggleExpansion (st : ExpState) (level name : String) (occurrenceCount : Int) : ExpState :=
  let key := keyOf level name
  if jsTruthy (jsLookup st key) then
    st.filter (fun e =>
      !(jsStartsWith e.1 key ||
        decide (jsIndexOf TAXONOMY_LEVELS (splitHead e.1) > jsIndexOf TAXONOMY_LEVELS level)))
  else
    let cleared := st.filter (fun e =>
      !(decide (jsIndexOf TAXONOMY_LEVELS (splitHead e.1) ≥ jsIndexOf TAXONOMY_LEVELS level)))
    jsMapSet cleared key occurrenceCount

/-- Embedding of `isExpanded(level, name)` (the code returns the stored
count and callers test its truthiness). -/
def isExpanded (st : ExpState) (level name : String) : Option Int :=
  jsLookup st (keyOf level name)

/-- The expansion states reachable from the initial empty map through
`toggleExpansion` calls. -/
inductive Reachable : ExpState → Prop
  | empty : Reachable []
  | step (st : ExpState) (level name : String) (c : Int) :
      Reachable st → Reachable (toggleExpansion st level name c)

/-- The number of expansion keys whose level segment is `l`. -/
def countAtLevel (st : ExpState) (l : String) : Nat :=
  (st.filter (fun e => splitHead e.1 == l)).length

/-- At most one expansion key per taxonomy level. -/
def OneMaxPerLevel (st : ExpState) : Prop :=
  ∀ l ∈ TAXONOMY_LEVELS, countAtLevel st l ≤ 1

/-- The total used by `renderTaxonomicLevel` for widths and percentages:
the parent's recorded `occurrence_count` when its record is found in the
level above and is truthy, else the sum of the children's counts
(`if (!totalOccurrences) totalOccurrences = d3.sum(data, ...)`)). -/
def totalOccurrencesUsed (td : TaxonomyData) (level : String) (parent : Option String)
    (data : List TaxonRecord) : Int :=
  let fromParent : Option Int :=
    match parent with
    | some p =>
      match getPreviousLevel level with
      | some parentLevel =>
        match (getTable td parentLevel).find? (fun d => d.name == p) with
        | some parentRecord => some parentRecord.occurrence_count
        | none => none
      | none => none
    | none => none
  match fromParent with
  | some t => if t = 0 then sumOccurrences data else t
  | none => sumOccurrences data

/-- The percentage-of-parent value shown in the title of an expanded
node's children: `(totalOccurrences / parentTotal) * 100`, where
`parentTotal` is `expandedNodes.get(getPreviousLevel(level) + ':' + parent)`;
`none` when the stored total is absent or falsy (no label shown).  The
resulting rational is what `toFixed(1)` then renders to one decimal. -/
def percentageOfParentVal (st : ExpState) (level parent : String)
    (totalOccurrences : Int) : Option ℚ :=
  match getPreviousLevel level with
  | some parentLevel =>
    match jsLookup st (keyOf parentLevel parent) with
    | some v => if v ≠ 0 then some ((totalOccurrences : ℚ) / (v : ℚ) * 100) else none
    | none => none
  | none => none

/-- Running a sequence of `toggleExpansion` calls. -/
def runToggles (ops : List (String × String × Int)) (st : ExpState) : ExpState :=
  ops.foldl (fun s op => toggleExpansion s op.1 op.2.1 op.2.2) st

/-- The color-assignment state: the `termColors` map together with
`currentColorIndex`.  Stored values are `Option String` because
indexing `colorScheme[idx]` past the end yields `undefined`. -/
structure ColorState where
  termColors : List (String × Option String)
  currentColorIndex : Nat
deriving DecidableEq, Repr

/-- Embedding of `getTermColor(term)` over an explicit state and the
`colorScheme` palette (`d3.schemeTableau10`, ten colors): assign the next
palette color on first sight, then always return the stored color. -/
def getTermColor (scheme : List String) (st : ColorState) (term : String) :
    Option String × ColorState :=
  match jsLookup st.termColors term with
  | some v => (v, st)
  | none =>
    let assigned := scheme.get? st.currentColorIndex
    (assigned,
      ⟨jsMapSet st.termColors term assigned, (st.currentColorIndex + 1) % scheme.length⟩)

/-- Running a sequence of `getTermColor` calls for the given terms. -/
def runTermColorCalls (scheme : List String) (ops : List String) (st : ColorState) : ColorState :=
  ops.foldl (fun s t => (getTermColor scheme s t).2) st

/-- Embedding of `getDisplayName(name, level)` from the taxonomy-tree
variant: `commonNames` maps scientific names to common names; a present,
nonempty (truthy) common name yields `"common (scientific)"`. -/
def getDisplayName (commonNames : List (String × String)) (name level : String) : String :=
  match jsLookup commonNames name with
  | some commonName =>
    if commonName == "" then name else commonName ++ " (" ++ name ++ ")"
  | none => name

/-- One entry of the structured `common-names.json` used by the
kingdom/phylum details variant. -/
structure CommonNameEntry where
  common_name : String
  description : String
deriving DecidableEq, Repr

/-- Embedding of `getDisplayName(name, type)` from the kingdom/phylum
details variant: phylum entries yield the bare common name, species
entries yield `"common (scientific)"`, anything else is returned
unchanged. -/
def getDisplayNameVis (phyla speciesNames : List (String × CommonNameEntry))
    (name ty : String) : String :=
  if ty == "phylum" then
    match jsLookup phyla name with
    | some entry => entry.common_name
    | none => name
  else if ty == "species" then
    match jsLookup speciesNames name with
    | some entry => entry.common_name ++ " (" ++ name ++ ")"
    | none => name
  else name

noncomputable section

/-- Embedding of `d3.scaleLog().domain([0.01, 100]).range([0, availableWidth]).clamp(true)`
over the reals: the input is clamped to the domain and interpolated on a
logarithmic axis. -/
def d3LogScaleClamped (availableWidth : ℝ) (p : ℝ) : ℝ :=
  let q := max 0.01 (min 100 p)
  availableWidth * (Real.log q - Real.log 0.01) / (Real.log 100 - Real.log 0.01)

/-- The mapped width of one child in `renderTaxonomicLevel`:
`logScale(Math.max(0.01, percentage))` with
`percentage = (+d.occurrence_count / totalOccurrences) * 100`. -/
def mappedWidth (availableWidth total cnt : ℝ) : ℝ :=
  d3LogScaleClamped availableWidth (max 0.01 (cnt / total * 100))

/-- `totalLogWidth = d3.sum(data, d => logScale(Math.max(0.01, percentage)))`. -/
def totalLogWidth (availableWidth total : ℝ) (counts : List ℝ) : ℝ :=
  (counts.map (mappedWidth availableWidth total)).sum

/-- A segment's final width: its mapped width times
`scaleFactor = availableWidth / totalLogWidth`. -/
def segmentWidth (availableWidth total : ℝ) (counts : List ℝ) (cnt : ℝ) : ℝ :=
  mappedWidth availableWidth total cnt * (availableWidth / totalLogWidth availableWidth total counts)

end

lemma jsLookup_mem {β : Type} {m : List (String × β)} {k : String} {v : β}
    (h : jsLookup m k = some v) : (k, v) ∈ m := by
  induction m with
  | nil => simp [jsLookup] at h
  | cons e rest ih =>
    obtain ⟨k', v'⟩ := e
    by_cases hk : k' = k
    · subst hk
      simp only [jsLookup, beq_self_eq_true, if_true, Option.some.injEq] at h
      subst h
      exact List.mem_cons_self _ _
    · have hb : (k' == k) = false := beq_eq_false_iff_ne.mpr hk
      simp only [jsLookup, hb, Bool.false_eq_true, if_false] at h
      exact List.mem_cons_of_mem _ (ih h)

lemma jsLookup_eq_none_iff_not_mem_keys {β : Type} {m : List (String × β)} {k : String} :
    jsLookup m k = none ↔ k ∉ m.map Prod.fst := by
  induction m with
  | nil => simp [jsLookup]
  | cons e rest ih =>
    obtain ⟨k', v'⟩ := e
    by_cases hk : k' = k
    · subst hk
      simp [jsLookup]
    · simp only [jsLookup, beq_iff_eq, hk, if_neg, List.map_cons, List.mem_cons, not_or]
      constructor
      · intro h
        exact ⟨fun hke => hk hke.symm, ih.mp h⟩
      · intro h
        exact ih.mpr h.2

lemma jsLookup_eq_none_of_not_any {β : Type} {m : List (String × β)} {k : String}
    (h : m.any (fun e => e.1 == k) = false) : jsLookup m k = none := by
  induction m with
  | nil => rfl
  | cons e rest ih =>
    obtain ⟨k', v'⟩ := e
    simp only [List.any_cons, Bool.or_eq_false_iff] at h
    simp only [jsLookup, h.1, Bool.false_eq_true, if_false]
    exact ih h.2

lemma any_eq_false_of_jsLookup_none {β : Type} {m : List (String × β)} {k : String}
    (h : jsLookup m k = none) : m.any (fun e => e.1 == k) = false := by
  induction m with
  | nil => rfl
  | cons e rest ih =>
    obtain ⟨k', v'⟩ := e
    by_cases hk : (k' == k) = true
    · simp [jsLookup, hk] at h
    · have hb : (k' == k) = false := by
        cases hbe : (k' == k) with
        | true => exact absurd hbe hk
        | false => rfl
      simp only [jsLookup, hb, Bool.false_eq_true, if_false] at h
      simp only [List.any_cons, hb, Bool.false_or]
      exact ih h

lemma jsMapSet_eq_append {β : Type} {m : List (String × β)} {k : String} {v : β}
    (h : jsLookup m k = none) : jsMapSet m k v = m ++ [(k, v)] := by
  unfold jsMapSet
  rw [any_eq_false_of_jsLookup_none h]
  simp

lemma jsLookup_append_of_none {β : Type} {m m' : List (String × β)} {k : String}
    (h : jsLookup m k = none) : jsLookup (m ++ m') k = jsLookup m' k := by
  induction m with
  | nil => rfl
  | cons e rest ih =>
    obtain ⟨k', v'⟩ := e
    by_cases hk : (k' == k) = true
    · simp [jsLookup, hk] at h
    · have hb : (k' == k) = false := by
        cases hbe : (k' == k) with
        | true => exact absurd hbe hk
        | false => rfl
      simp only [jsLookup, hb, Bool.false_eq_true, if_false] at h
      simp only [List.cons_append, jsLookup, hb, Bool.false_eq_true, if_false]
      exact ih h

lemma jsLookup_filter_none {β : Type} {m : List (String × β)} {k : String}
    (p : String × β → Bool) (h : jsLookup m k = none) :
    jsLookup (m.filter p) k = none := by
  induction m with
  | nil => rfl
  | cons e rest ih =>
    obtain ⟨k', v'⟩ := e
    by_cases hk : (k' == k) = true
    · simp [jsLookup, hk] at h
    · have hb : (k' == k) = false := by
        cases hbe : (k' == k) with
        | true => exact absurd hbe hk
        | false => rfl
      simp only [jsLookup, hb, Bool.false_eq_true, if_false] at h
      by_cases hp : p (k', v') = true
      · simp only [List.filter_cons, hp, if_true, jsLookup, hb, Bool.false_eq_true, if_false]
        exact ih h
      · simp only [List.filter_cons, hp, if_false, Bool.false_eq_true]
        exact ih h

lemma jsLookup_filter_of_nodup {β : Type} {m : List (String × β)} {k : String} {v : β}
    (p : String × β → Bool) (hnd : (m.map Prod.fst).Nodup) (h : jsLookup m k = some v) :
    jsLookup (m.filter p) k = some v ∨ jsLookup (m.filter p) k = none := by
  induction m with
  | nil => simp [jsLookup] at h
  | cons e rest ih =>
    obtain ⟨k', v'⟩ := e
    simp only [List.map_cons, List.nodup_cons] at hnd
    by_cases hk : k' = k
    · subst hk
      have hv : v' = v := by
        simp only [jsLookup, beq_self_eq_true, if_true, Option.some.injEq] at h
        exact h
      subst hv
      by_cases hp : p (k', v') = true
      · left
        simp [List.filter_cons, hp, jsLookup]
      · right
        have hrest : jsLookup rest k' = none := jsLookup_eq_none_iff_not_mem_keys.mpr hnd.1
        simp only [List.filter_cons, hp, if_false, Bool.false_eq_true]
        exact jsLookup_filter_none p hrest
    · have hb : (k' == k) = false := beq_eq_false_iff_ne.mpr hk
      simp only [jsLookup, hb, Bool.false_eq_true, if_false] at h
      by_cases hp : p (k', v') = true
      · simp only [List.filter_cons, hp, if_true, jsLookup, hb, Bool.false_eq_true, if_false]
        exact ih hnd.2 h
      · simp only [List.filter_cons, hp, if_false, Bool.false_eq_true]
        exact ih hnd.2 h

lemma jsLookup_map_replace {β : Type} {m : List (String × β)} {k' k : String} {v : β}
    (hne : k' ≠ k) :
    jsLookup (m.map (fun e => if e.1 == k' then (e.1, v) else e)) k = jsLookup m k := by
  induction m with
  | nil => rfl
  | cons e rest ih =>
    obtain ⟨k'', v''⟩ := e
    rw [List.map_cons]
    by_cases h1 : k'' = k'
    · subst h1
      have hhead : (if ((k'', v'').1 == k'') = true then ((k'', v'').1, v) else (k'', v''))
          = (k'', v) := by
        simp
      rw [hhead]
      have hbk : (k'' == k) = false := beq_eq_false_iff_ne.mpr hne
      simp only [jsLookup, hbk, Bool.false_eq_true, if_false]
      exact ih
    · have hb1 : (k'' == k') = false := beq_eq_false_iff_ne.mpr h1
      have hhead : (if ((k'', v'').1 == k') = true then ((k'', v'').1, v) else (k'', v''))
          = (k'', v'') := by
        simp [hb1]
      rw [hhead]
      by_cases hbk : (k'' == k) = true
      · simp [jsLookup, hbk]
      · have hb3 : (k'' == k) = false := Bool.eq_false_iff.mpr hbk
        simp only [jsLookup, hb3, Bool.false_eq_true, if_false]
        exact ih

lemma jsLookup_append_single_ne {β : Type} {m : List (String × β)} {k' k : String} {v : β}
    (hne : k' ≠ k) : jsLookup (m ++ [(k', v)]) k = jsLookup m k := by
  induction m with
  | nil =>
    have hb : (k' == k) = false := beq_eq_false_iff_ne.mpr hne
    simp [jsLookup, hb]
  | cons e rest ih =>
    obtain ⟨k'', v''⟩ := e
    by_cases hbk : (k'' == k) = true
    · simp [List.cons_append, jsLookup, hbk]
    · have hb3 : (k'' == k) = false := Bool.eq_false_iff.mpr hbk
      simp only [List.cons_append, jsLookup, hb3, Bool.false_eq_true, if_false]
      exact ih

lemma jsLookup_jsMapSet_ne {β : Type} {m : List (String × β)} {k' k : String} {v : β}
    (hne : k' ≠ k) : jsLookup (jsMapSet m k' v) k = jsLookup m k := by
  unfold jsMapSet
  by_cases hany : m.any (fun e => e.1 == k') = true
  · simp only [hany, if_true]
    exact jsLookup_map_replace hne
  · have hb : m.any (fun e => e.1 == k') = false := Bool.eq_false_iff.mpr hany
    simp only [hb, Bool.false_eq_true, if_false]
    exact jsLookup_append_single_ne hne

lemma neg_one_le_jsIndexOf (l : List String) (s : String) : -1 ≤ jsIndexOf l s := by
  induction l with
  | nil => simp [jsIndexOf]
  | cons a rest ih =>
    simp only [jsIndexOf]
    by_cases h : (a == s) = true
    · simp [h]
    · have hb : (a == s) = false := Bool.eq_false_iff.mpr h
      simp only [hb, Bool.false_eq_true, if_false]
      by_cases h2 : (jsIndexOf rest s == -1) = true
      · simp [h2]
      · have hb2 : (jsIndexOf rest s == -1) = false := Bool.eq_false_iff.mpr h2
        simp only [hb2, Bool.false_eq_true, if_false]
        omega

lemma jsIndexOf_nonneg_iff_mem (l : List String) (s : String) :
    0 ≤ jsIndexOf l s ↔ s ∈ l := by
  induction l with
  | nil => simp [jsIndexOf]
  | cons a rest ih =>
    simp only [jsIndexOf, List.mem_cons]
    by_cases h : (a == s) = true
    · have : a = s := by simpa using h
      simp [h, this]
    · have hb : (a == s) = false := Bool.eq_false_iff.mpr h
      have hne : ¬(s = a) := fun hc => h (by simp [hc])
      simp only [hb, Bool.false_eq_true, if_false]
      by_cases h2 : (jsIndexOf rest s == -1) = true
      · have hv : jsIndexOf rest s = -1 := by simpa using h2
        have : s ∉ rest := by
          intro hc
          have := ih.mpr hc
          omega
        simp only [if_pos h2]
        constructor
        · intro hle
          omega
        · intro hor
          rcases hor with hc | hc
          · exact absurd hc hne
          · exact absurd hc this
      · have hb2 : (jsIndexOf rest s == -1) = false := Bool.eq_false_iff.mpr h2
        have hv : jsIndexOf rest s ≠ -1 := by simpa using hb2
        have hge := neg_one_le_jsIndexOf rest s
        have hmem : s ∈ rest := ih.mp (by omega)
        simp only [hb2, Bool.false_eq_true, if_false]
        constructor
        · intro _
          exact Or.inr hmem
        · intro _
          omega

lemma jsIndexOf_inj {l : List String} {a b : String}
    (ha : a ∈ l) (hb : b ∈ l) (h : jsIndexOf l a = jsIndexOf l b) : a = b := by
  induction l with
  | nil => simp at ha
  | cons x rest ih =>
    by_cases hxa : (x == a) = true
    · have hxa' : x = a := by simpa using hxa
      by_cases hxb : (x == b) = true
      · have hxb' : x = b := by simpa using hxb
        rw [← hxa', ← hxb']
      · have hbb : (x == b) = false := Bool.eq_false_iff.mpr hxb
        have hbmem : b ∈ rest := by
          rcases List.mem_cons.mp hb with hc | hc
          · exact absurd (by simp [hc]) hxb
          · exact hc
        have hbge : 0 ≤ jsIndexOf rest b := (jsIndexOf_nonneg_iff_mem rest b).mpr hbmem
        have hbne : (jsIndexOf rest b == -1) = false := by
          simp only [beq_eq_false_iff_ne, ne_eq]
          omega
        simp only [jsIndexOf, hxa, if_true, hbb, Bool.false_eq_true, if_false, hbne] at h
        omega
    · have hba : (x == a) = false := Bool.eq_false_iff.mpr hxa
      have hamem : a ∈ rest := by
        rcases List.mem_cons.mp ha with hc | hc
        · exact absurd (by simp [hc]) hxa
        · exact hc
      have hage : 0 ≤ jsIndexOf rest a := (jsIndexOf_nonneg_iff_mem rest a).mpr hamem
      have hane : (jsIndexOf rest a == -1) = false := by
        simp only [beq_eq_false_iff_ne, ne_eq]
        omega
      by_cases hxb : (x == b) = true
      · simp only [jsIndexOf, hxb, if_true, hba, Bool.false_eq_true, if_false, hane] at h
        omega
      · have hbb : (x == b) = false := Bool.eq_false_iff.mpr hxb
        have hbmem : b ∈ rest := by
          rcases List.mem_cons.mp hb with hc | hc
          · exact absurd (by simp [hc]) hxb
          · exact hc
        have hbge : 0 ≤ jsIndexOf rest b := (jsIndexOf_nonneg_iff_mem rest b).mpr hbmem
        have hbne : (jsIndexOf rest b == -1) = false := by
          simp only [beq_eq_false_iff_ne, ne_eq]
          omega
        simp only [jsIndexOf, hba, hbb, Bool.false_eq_true, if_false, hane, hbne] at h
        exact ih hamem hbmem (by omega)

lemma takeWhile_until_colon (L M : List Char) (h : ∀ c ∈ L, (c != ':') = true) :
    (L ++ ':' :: M).takeWhile (fun c => c != ':') = L := by
  induction L with
  | nil => simp
  | cons c rest ih =>
    have hc : (c != ':') = true := h c (List.mem_cons_self _ _)
    simp only [List.cons_append, List.takeWhile_cons, hc, if_true]
    rw [ih (fun d hd => h d (List.mem_cons_of_mem _ hd))]

lemma splitHead_of_data_eq {s level : String} {M : List Char}
    (hd : s.data = level.data ++ ':' :: M) (h : ':' ∉ level.data) : splitHead s = level := by
  have hall : ∀ c ∈ level.data, (c != ':') = true := by
    intro c hc
    simp only [bne_iff_ne, ne_eq]
    intro hcc
    exact h (hcc ▸ hc)
  unfold splitHead
  rw [hd, takeWhile_until_colon _ _ hall]

lemma keyOf_data (level name : String) :
    (keyOf level name).data = level.data ++ ':' :: name.data := by
  unfold keyOf
  rw [String.data_append, String.data_append]
  simp

lemma splitHead_keyOf {level : String} (name : String) (h : ':' ∉ level.data) :
    splitHead (keyOf level name) = level :=
  splitHead_of_data_eq (keyOf_data level name) h

lemma levels_no_colon : ∀ l ∈ TAXONOMY_LEVELS, ':' ∉ l.data := by decide

lemma splitHead_of_startsWith {s level name : String}
    (hpre : jsStartsWith s (keyOf level name) = true) (h : ':' ∉ level.data) :
    splitHead s = level := by
  unfold jsStartsWith at hpre
  rw [ List.isPrefixOf_iff_prefix] at hpre
  obtain ⟨t, ht⟩ := hpre
  have hd : s.data = level.data ++ ':' :: (name.data ++ t) := by
    rw [← ht, keyOf_data]
    simp
  exact splitHead_of_data_eq hd h

lemma eq_of_mem_of_length_le_one {α : Type} {l : List α} {a b : α}
    (ha : a ∈ l) (hb : b ∈ l) (h : l.length ≤ 1) : a = b := by
  match l with
  | [] => simp at ha
  | [x] =>
    have h1 : a = x := by simpa using ha
    have h2 : b = x := by simpa using hb
    rw [h1, h2]
  | x :: y :: rest => simp at h

lemma countAtLevel_filter_le (st : ExpState) (p : String × Int → Bool) (l : String) :
    countAtLevel (st.filter p) l ≤ countAtLevel st l := by
  unfold countAtLevel
  exact ((List.filter_sublist st).filter _).length_le

lemma countAtLevel_append (st st' : ExpState) (l : String) :
    countAtLevel (st ++ st') l = countAtLevel st l + countAtLevel st' l := by
  unfold countAtLevel
  rw [List.filter_append, List.length_append]

lemma cleared_lookup_key_none (st : ExpState) {level : String} (name : String)
    (hL : level ∈ TAXONOMY_LEVELS) :
    jsLookup (st.filter (fun e =>
      !(decide (jsIndexOf TAXONOMY_LEVELS (splitHead e.1) ≥ jsIndexOf TAXONOMY_LEVELS level))))
      (keyOf level name) = none := by
  cases hlk : jsLookup (st.filter (fun e =>
      !(decide (jsIndexOf TAXONOMY_LEVELS (splitHead e.1) ≥ jsIndexOf TAXONOMY_LEVELS level))))
      (keyOf level name) with
  | none => rfl
  | some v =>
    exfalso
    have hmem := jsLookup_mem hlk
    rw [List.mem_filter] at hmem
    have hpred := hmem.2
    simp only [Bool.not_eq_true', decide_eq_false_iff_not, not_le] at hpred
    rw [splitHead_keyOf name (levels_no_colon level hL)] at hpred
    exact lt_irrefl _ hpred

lemma cleared_eq_nil_of_idx_neg (st : ExpState) {level : String}
    (hidx : jsIndexOf TAXONOMY_LEVELS level = -1) :
    st.filter (fun e =>
      !(decide (jsIndexOf TAXONOMY_LEVELS (splitHead e.1) ≥ jsIndexOf TAXONOMY_LEVELS level)))
      = [] := by
  rw [List.filter_eq_nil_iff]
  intro e _
  have hge := neg_one_le_jsIndexOf TAXONOMY_LEVELS (splitHead e.1)
  simp only [Bool.not_eq_true', decide_eq_false_iff_not, not_lt, not_not, Bool.not_eq_true,
    decide_eq_false_iff_not, not_le]
  rw [hidx]
  omega

lemma toggleExpansion_expand_eq (st : ExpState) (level name : String) (c : Int)
    (hT : jsTruthy (jsLookup st (keyOf level name)) = false) :
    toggleExpansion st level name c =
      st.filter (fun e =>
        !(decide (jsIndexOf TAXONOMY_LEVELS (splitHead e.1) ≥ jsIndexOf TAXONOMY_LEVELS level)))
      ++ [(keyOf level name, c)] := by
  have hnone : jsLookup (st.filter (fun e =>
      !(decide (jsIndexOf TAXONOMY_LEVELS (splitHead e.1) ≥ jsIndexOf TAXONOMY_LEVELS level))))
      (keyOf level name) = none := by
    by_cases hmem : 0 ≤ jsIndexOf TAXONOMY_LEVELS level
    · exact cleared_lookup_key_none st name ((jsIndexOf_nonneg_iff_mem _ _).mp hmem)
    · have hidx : jsIndexOf TAXONOMY_LEVELS level = -1 := by
        have := neg_one_le_jsIndexOf TAXONOMY_LEVELS level
        omega
      rw [cleared_eq_nil_of_idx_neg st hidx]
      rfl
  simp only [toggleExpansion]
  rw [hT]
  simp only [Bool.false_eq_true, if_false]
  exact jsMapSet_eq_append hnone

lemma reachable_oneMax_nodup {st : ExpState} (h : Reachable st) :
    OneMaxPerLevel st ∧ (st.map Prod.fst).Nodup := by
  induction h with
  | empty =>
    constructor
    · intro l _
      simp [countAtLevel]
    · simp
  | step st level name c _ ih =>
    obtain ⟨hmax, hnd⟩ := ih
    by_cases hT : jsTruthy (jsLookup st (keyOf level name)) = true
    · have hcol : toggleExpansion st level name c = st.filter (fun e =>
        !(jsStartsWith e.1 (keyOf level name) ||
          decide (jsIndexOf TAXONOMY_LEVELS (splitHead e.1) > jsIndexOf TAXONOMY_LEVELS level))) := by
        simp only [toggleExpansion]
        rw [hT]
        simp
      rw [hcol]
      constructor
      · intro l hl
        exact le_trans (countAtLevel_filter_le st _ l) (hmax l hl)
      · exact hnd.sublist ((List.filter_sublist st).map Prod.fst)
    · have hTf : jsTruthy (jsLookup st (keyOf level name)) = false := Bool.eq_false_iff.mpr hT
      rw [toggleExpansion_expand_eq st level name c hTf]
      set cleared := st.filter (fun e =>
        !(decide (jsIndexOf TAXONOMY_LEVELS (splitHead e.1) ≥ jsIndexOf TAXONOMY_LEVELS level)))
        with hcl
      have hclsub : cleared.Sublist st := List.filter_sublist st
      have hkeynotin : keyOf level name ∉ cleared.map Prod.fst := by
        apply jsLookup_eq_none_iff_not_mem_keys.mp
        by_cases hmem : 0 ≤ jsIndexOf TAXONOMY_LEVELS level
        · exact cleared_lookup_key_none st name ((jsIndexOf_nonneg_iff_mem _ _).mp hmem)
        · have hidx : jsIndexOf TAXONOMY_LEVELS level = -1 := by
            have := neg_one_le_jsIndexOf TAXONOMY_LEVELS level
            omega
          rw [hcl, cleared_eq_nil_of_idx_neg st hidx]
          rfl
      constructor
      · intro l hl
        rw [countAtLevel_append]
        have hcls : countAtLevel cleared l ≤ countAtLevel st l :=
          countAtLevel_filter_le st _ l
        by_cases hsh : (splitHead (keyOf level name) == l) = true
        · have hc0 : countAtLevel cleared l = 0 := by
            by_cases hmem : 0 ≤ jsIndexOf TAXONOMY_LEVELS level
            · have hLmem : level ∈ TAXONOMY_LEVELS := (jsIndexOf_nonneg_iff_mem _ _).mp hmem
              have hsk : splitHead (keyOf level name) = level :=
                splitHead_keyOf name (levels_no_colon level hLmem)
              have hleq : l = level := by
                have hshe : splitHead (keyOf level name) = l := by simpa using hsh
                rw [hsk] at hshe
                exact hshe.symm
              subst hleq
              unfold countAtLevel
              rw [List.length_eq_zero, List.filter_eq_nil_iff]
              intro e he
              rw [hcl, List.mem_filter] at he
              have hpred := he.2
              simp only [Bool.not_eq_true', decide_eq_false_iff_not, not_le] at hpred
              intro hc
              have hce : splitHead e.1 = l := by simpa using hc
              rw [hce] at hpred
              exact lt_irrefl _ hpred
            · have hidx : jsIndexOf TAXONOMY_LEVELS level = -1 := by
                have := neg_one_le_jsIndexOf TAXONOMY_LEVELS level
                omega
              rw [hcl, cleared_eq_nil_of_idx_neg st hidx]
              simp [countAtLevel]
          have h1 : countAtLevel [(keyOf level name, c)] l ≤ 1 := by
            unfold countAtLevel
            exact le_trans (List.length_filter_le _ _) (by simp)
          omega
        · have h0 : countAtLevel [(keyOf level name, c)] l = 0 := by
            have hb : (splitHead (keyOf level name) == l) = false := Bool.eq_false_iff.mpr hsh
            simp [countAtLevel, hb]
          have := hmax l hl
          omega
      · rw [List.map_append]
        apply List.Nodup.append
        · exact hnd.sublist (hclsub.map Prod.fst)
        · simp
        · intro x hx hx2
          simp only [List.map_cons, List.map_nil, List.mem_singleton] at hx2
          subst hx2
          exact hkeynotin hx

/-- C1: starting from the empty expansion state, every state reachable by
`toggleExpansion` calls has at most one expanded key per taxonomy level;
and expanding a key that is not currently expanded first removes every
expansion key whose level is at that level or deeper in the taxonomy
order, then appends `(level, name)` mapped to the occurrence count passed
at the click. -/
theorem toggleExpansion_singleOpenPath (st : ExpState) (hR : Reachable st) :
    OneMaxPerLevel st ∧
    ∀ level name c, jsTruthy (jsLookup st (keyOf level name)) = false →
      toggleExpansion st level name c =
        st.filter (fun e =>
          !(decide (jsIndexOf TAXONOMY_LEVELS (splitHead e.1) ≥ jsIndexOf TAXONOMY_LEVELS level)))
        ++ [(keyOf level name, c)] :=
  ⟨(reachable_oneMax_nodup hR).1,
    fun level name c hT => toggleExpansion_expand_eq st level name c hT⟩

/-- Witness for C1 at the concrete state reached by expanding
`(phylum, Arthropoda)`: the state satisfies the invariant and expanding
`(class, Insecta)` appends the new key. -/
theorem toggleExpansion_singleOpenPath_witness :
    OneMaxPerLevel [("phylum:Arthropoda", (100 : Int))] ∧
    toggleExpansion [("phylum:Arthropoda", (100 : Int))] "class" "Insecta" 50 =
      [("phylum:Arthropoda", (100 : Int)), ("class:Insecta", (50 : Int))] := by
  have hR : Reachable [("phylum:Arthropoda", (100 : Int))] := by
    have h := Reachable.step [] "phylum" "Arthropoda" 100 Reachable.empty
    have he : toggleExpansion [] "phylum" "Arthropoda" 100 =
        [("phylum:Arthropoda", (100 : Int))] := by decide
    rw [he] at h
    exact h
  have h := toggleExpansion_singleOpenPath _ hR
  refine ⟨h.1, ?_⟩
  rw [h.2 "class" "Insecta" 50 (by decide)]
  decide

/-- C2: in every reachable expansion state in which `(level, name)` is
currently expanded (its stored count is truthy), `toggleExpansion` removes
exactly the key `(level, name)` and every expansion key at a strictly
deeper taxonomy level, leaving all remaining entries (in particular every
key at a strictly shallower level) unchanged and in order. -/
theorem toggleExpansion_collapse (st : ExpState) (level name : String) (c : Int)
    (hR : Reachable st) (hL : level ∈ TAXONOMY_LEVELS)
    (hT : jsTruthy (jsLookup st (keyOf level name)) = true) :
    toggleExpansion st level name c =
      st.filter (fun e =>
        !((e.1 == keyOf level name) ||
          decide (jsIndexOf TAXONOMY_LEVELS (splitHead e.1) > jsIndexOf TAXONOMY_LEVELS level))) := by
  have hmax := (reachable_oneMax_nodup hR).1
  have hex : ∃ v, jsLookup st (keyOf level name) = some v := by
    cases hlk : jsLookup st (keyOf level name) with
    | none =>
      rw [hlk] at hT
      simp [jsTruthy] at hT
    | some v => exact ⟨v, rfl⟩
  obtain ⟨v, hv⟩ := hex
  have hkeymem : (keyOf level name, v) ∈ st := jsLookup_mem hv
  have hnc : ':' ∉ level.data := levels_no_colon level hL
  have hsk : splitHead (keyOf level name) = level := splitHead_keyOf name hnc
  simp only [toggleExpansion]
  rw [if_pos hT]
  apply List.filter_congr
  intro e he
  have hsw_eq : jsStartsWith e.1 (keyOf level name) = (e.1 == keyOf level name) := by
    by_cases hsw : jsStartsWith e.1 (keyOf level name) = true
    · have hce : splitHead e.1 = level := splitHead_of_startsWith hsw hnc
      have he_in : e ∈ st.filter (fun x => splitHead x.1 == level) := by
        rw [List.mem_filter]
        exact ⟨he, by simp [hce]⟩
      have hk_in : (keyOf level name, v) ∈ st.filter (fun x => splitHead x.1 == level) := by
        rw [List.mem_filter]
        exact ⟨hkeymem, by simp [hsk]⟩
      have hlen := hmax level hL
      unfold countAtLevel at hlen
      have heq : e = (keyOf level name, v) := eq_of_mem_of_length_le_one he_in hk_in hlen
      rw [hsw, heq]
      simp
    · have hb : jsStartsWith e.1 (keyOf level name) = false := Bool.eq_false_iff.mpr hsw
      rw [hb]
      by_cases hbe : (e.1 == keyOf level name) = true
      · exfalso
        have he1 : e.1 = keyOf level name := by simpa using hbe
        apply hsw
        unfold jsStartsWith
        rw [he1, List.isPrefixOf_iff_prefix]
      · have hb2 : (e.1 == keyOf level name) = false := Bool.eq_false_iff.mpr hbe
        rw [hb2]
  rw [hsw_eq]

/-- Witness for C2: collapsing `(phylum, Arthropoda)` in the reachable
state where it is expanded with `(class, Insecta)` below it empties the
expansion state. -/
theorem toggleExpansion_collapse_witness :
    toggleExpansion [("phylum:Arthropoda", (100 : Int)), ("class:Insecta", (50 : Int))]
      "phylum" "Arthropoda" 7 = [] := by
  have hR : Reachable [("phylum:Arthropoda", (100 : Int)), ("class:Insecta", (50 : Int))] := by
    have h := Reachable.step _ "class" "Insecta" 50
      (Reachable.step [] "phylum" "Arthropoda" 100 Reachable.empty)
    have he : toggleExpansion (toggleExpansion [] "phylum" "Arthropoda" 100) "class" "Insecta" 50 =
        [("phylum:Arthropoda", (100 : Int)), ("class:Insecta", (50 : Int))] := by decide
    rw [he] at h
    exact h
  rw [toggleExpansion_collapse _ _ _ 7 hR (by decide) (by decide)]
  decide

lemma orderedInsert_filter_count_eq (x : TaxonRecord) (l : List TaxonRecord) (c : Int)
    (hx : x.occurrence_count = c) :
    (List.orderedInsert countDesc x l).filter (fun r => r.occurrence_count == c) =
      x :: l.filter (fun r => r.occurrence_count == c) := by
  induction l with
  | nil => simp [List.orderedInsert, hx]
  | cons b l ih =>
    by_cases hr : countDesc x b
    · rw [List.orderedInsert, if_pos hr]
      simp [hx]
    · rw [List.orderedInsert, if_neg hr]
      have hbc : b.occurrence_count ≠ c := by
        unfold countDesc at hr
        push_neg at hr
        omega
      have hbb : (b.occurrence_count == c) = false := by
        simpa using hbc
      simp only [List.filter_cons, hbb, Bool.false_eq_true, if_false]
      exact ih

lemma orderedInsert_filter_count_ne (x : TaxonRecord) (l : List TaxonRecord) (c : Int)
    (hx : x.occurrence_count ≠ c) :
    (List.orderedInsert countDesc x l).filter (fun r => r.occurrence_count == c) =
      l.filter (fun r => r.occurrence_count == c) := by
  have hxb : (x.occurrence_count == c) = false := by simpa using hx
  induction l with
  | nil => simp [List.orderedInsert, hxb]
  | cons b l ih =>
    by_cases hr : countDesc x b
    · rw [List.orderedInsert, if_pos hr]
      simp [List.filter_cons, hxb]
    · rw [List.orderedInsert, if_neg hr]
      simp only [List.filter_cons]
      rw [ih]

lemma sortJS_filter_count (l : List TaxonRecord) (c : Int) :
    (sortJS l).filter (fun r => r.occurrence_count == c) =
      l.filter (fun r => r.occurrence_count == c) := by
  induction l with
  | nil => rfl
  | cons a l ih =>
    show (List.orderedInsert countDesc a (sortJS l)).filter (fun r => r.occurrence_count == c)
      = _
    by_cases ha : a.occurrence_count = c
    · rw [orderedInsert_filter_count_eq a (sortJS l) c ha, ih]
      have hab : (a.occurrence_count == c) = true := by simpa using ha
      simp [List.filter_cons, hab]
    · rw [orderedInsert_filter_count_ne a (sortJS l) c ha, ih]
      have hab : (a.occurrence_count == c) = false := by simpa using ha
      simp [List.filter_cons, hab]

lemma sortJS_sorted (l : List TaxonRecord) : List.Sorted countDesc (sortJS l) :=
  List.sorted_insertionSort countDesc l

/-- C3 counterexample: with two records of equal occurrence_count whose
names are stored in descending order, the children lookup keeps the stored
order (the comparator never inspects names), so the returned sequence is
not name-ascending on ties. -/
theorem childrenOf_tiebreak_counterexample :
    ¬ ((filterTaxonomicData
        [("phylum", [⟨"b", some "K", 5, 0⟩, ⟨"a", some "K", 5, 0⟩])]
        "phylum" (some "K")).1.Pairwise (fun x y =>
          y.occurrence_count ≤ x.occurrence_count ∧
          (x.occurrence_count = y.occurrence_count → x.name ≤ y.name))) := by
  intro h
  have hout : (filterTaxonomicData
      [("phylum", [⟨"b", some "K", 5, 0⟩, ⟨"a", some "K", 5, 0⟩])]
      "phylum" (some "K")).1 =
      [⟨"b", some "K", 5, 0⟩, ⟨"a", some "K", 5, 0⟩] := by decide
  rw [hout, List.pairwise_cons] at h
  have hle : ("b" : String) ≤ "a" :=
    (h.1 ⟨"a", some "K", 5, 0⟩ (by simp)).2 rfl
  rw [String.le_iff_toList_le] at hle
  exact (by decide : ¬ (("b".toList : List Char) ≤ "a".toList)) hle

/-- C3 amended: for every level and parent the children lookup is sorted
descending by occurrence_count, but records with equal occurrence_count
keep their relative order from the loaded table (ECMAScript stable sort)
rather than being reordered by name; the sorted core is a prefix of the
returned sequence (at species level a residual record may follow it). -/
theorem childrenOf_sorted_stable (td : TaxonomyData) (level : String) (parent : Option String) :
    List.Sorted countDesc (childrenCore td level parent) ∧
    (∀ c : Int, (childrenCore td level parent).filter (fun r => r.occurrence_count == c) =
      (match parent with
       | none => getTable td level
       | some p => (getTable td level).filter (fun d => d.parent == some p)).filter
        (fun r => r.occurrence_count == c)) ∧
    childrenCore td level parent <+: (filterTaxonomicData td level parent).1 := by
  refine ⟨?_, ?_, ?_⟩
  · cases parent with
    | none => exact sortJS_sorted _
    | some p => exact sortJS_sorted _
  · intro c
    cases parent with
    | none => exact sortJS_filter_count _ c
    | some p => exact sortJS_filter_count _ c
  · cases parent with
    | none => exact List.prefix_rfl
    | some p =>
      simp only [filterTaxonomicData, childrenCore]
      by_cases hsp : (level == "species") = true
      · rw [if_pos hsp]
        cases getPreviousLevel level with
        | none => exact List.prefix_rfl
        | some pl =>
          dsimp only
          cases (getTable td pl).find? (fun d => d.name == p) with
          | none => exact List.prefix_rfl
          | some pr =>
            dsimp only
            by_cases hrem : pr.occurrence_count -
                sumOccurrences (sortJS ((getTable td level).filter
                  (fun d => d.parent == some p))) > 0
            · rw [if_pos hrem]
              exact List.prefix_append _ _
            · rw [if_neg hrem]
      · rw [if_neg hsp]

/-- C4: when listing species under a parent whose record is found in the
level above, a strictly positive remainder (parent count minus the sum of
the listed species counts) yields exactly one appended record named
"Other species" carrying the remainder and individual_count 0; a
remainder that is zero or negative yields no residual record. -/
theorem speciesResidual (td : TaxonomyData) (p : String) (pr : TaxonRecord)
    (hfind : (getTable td "genus").find? (fun d => d.name == p) = some pr) :
    (0 < pr.occurrence_count - sumOccurrences (childrenCore td "species" (some p)) →
      (filterTaxonomicData td "species" (some p)).1 =
        childrenCore td "species" (some p) ++
          [otherSpeciesRecord p (pr.occurrence_count -
            sumOccurrences (childrenCore td "species" (some p)))]) ∧
    (pr.occurrence_count - sumOccurrences (childrenCore td "species" (some p)) ≤ 0 →
      (filterTaxonomicData td "species" (some p)).1 = childrenCore td "species" (some p)) := by
  have hprev : getPreviousLevel "species" = some "genus" := by decide
  constructor
  · intro hpos
    simp only [childrenCore] at hpos ⊢
    simp only [filterTaxonomicData]
    rw [if_pos (by decide : (("species" : String) == "species") = true), hprev]
    dsimp only
    rw [hfind]
    dsimp only
    rw [if_pos hpos]
  · intro hnonpos
    simp only [childrenCore] at hnonpos ⊢
    simp only [filterTaxonomicData]
    rw [if_pos (by decide : (("species" : String) == "species") = true), hprev]
    dsimp only
    rw [hfind]
    dsimp only
    rw [if_neg (not_lt.mpr hnonpos)]

/-- Witness for C4: a genus with 1000 occurrences over species summing to
800 yields an "Other species" row of 200 appended after the sorted
species. -/
theorem speciesResidual_witness :
    (filterTaxonomicData
      [("genus", [⟨"G", some "F", 1000, 0⟩]),
       ("species", [⟨"s1", some "G", 600, 10⟩, ⟨"s2", some "G", 200, 5⟩])]
      "species" (some "G")).1 =
    [⟨"s1", some "G", 600, 10⟩, ⟨"s2", some "G", 200, 5⟩,
     ⟨"Other species", some "G", 200, 0⟩] := by
  have h := (speciesResidual
    [("genus", [⟨"G", some "F", 1000, 0⟩]),
     ("species", [⟨"s1", some "G", 600, 10⟩, ⟨"s2", some "G", 200, 5⟩])]
    "G" ⟨"G", some "F", 1000, 0⟩ (by decide)).1 (by decide)
  rw [h]
  decide

/-- C5 counterexample: a root-level (no parent) children lookup sorts the
stored table in place, so after the call the queried level's table is in a
different order than before. -/
theorem childrenOf_mutation_counterexample :
    getTable (filterTaxonomicData
        [("kingdom", [⟨"b", none, 1, 0⟩, ⟨"a", none, 2, 0⟩])] "kingdom" none).2 "kingdom"
      ≠ getTable [("kingdom", [⟨"b", none, 1, 0⟩, ⟨"a", none, 2, 0⟩])] "kingdom" := by
  decide

/-- C5 amended: a children lookup with a parent has no side effect on the
loaded tables; the root call (no parent) sorts the queried level's table
in place, so afterwards that table holds the same records reordered
(a permutation) and every other table is untouched. -/
theorem childrenOf_frame (td : TaxonomyData) (level : String) (p : String) :
    (filterTaxonomicData td level (some p)).2 = td ∧
    (filterTaxonomicData td level none).2 = setTable td level (sortJS (getTable td level)) ∧
    (sortJS (getTable td level)).Perm (getTable td level) ∧
    (∀ l', l' ≠ level →
      getTable (setTable td level (sortJS (getTable td level))) l' = getTable td l') := by
  refine ⟨?_, rfl, List.perm_insertionSort countDesc _, ?_⟩
  · simp only [filterTaxonomicData]
    by_cases hsp : (level == "species") = true
    · rw [if_pos hsp]
      cases getPreviousLevel level with
      | none => rfl
      | some pl =>
        dsimp only
        cases (getTable td pl).find? (fun d => d.name == p) with
        | none => rfl
        | some pr =>
          dsimp only
          by_cases hrem : pr.occurrence_count -
              sumOccurrences (sortJS ((getTable td level).filter
                (fun d => d.parent == some p))) > 0
          · rw [if_pos hrem]
          · rw [if_neg hrem]
    · rw [if_neg hsp]
  · intro l' hne
    unfold getTable setTable
    rw [jsLookup_map_replace (fun hc => hne hc.symm)]

/-- Witness for C5: at a concrete one-table store, a parented lookup
leaves the store intact and the in-place sort of the kingdom table leaves
the phylum table untouched. -/
theorem childrenOf_frame_witness :
    (filterTaxonomicData [("kingdom", [⟨"a", none, 2, 0⟩])] "kingdom" (some "X")).2 =
      [("kingdom", [⟨"a", none, 2, 0⟩])] ∧
    getTable (setTable [("kingdom", [⟨"a", none, 2, 0⟩])] "kingdom"
        (sortJS (getTable [("kingdom", [⟨"a", none, 2, 0⟩])] "kingdom"))) "phylum" =
      getTable [("kingdom", [⟨"a", none, 2, 0⟩])] "phylum" := by
  have h := childrenOf_frame [("kingdom", [⟨"a", none, 2, 0⟩])] "kingdom" "X"
  exact ⟨h.1, h.2.2.2 "phylum" (by decide)⟩

/-- C7 counterexample: in the kingdom/phylum details variant, a phylum
with a common-name entry resolves to the bare common name, not to
"common (scientific)". -/
theorem displayName_phylum_counterexample :
    (jsLookup [("Arthropoda", (⟨"Arthropods", "Jointed-leg animals"⟩ : CommonNameEntry))]
      "Arthropoda").isSome = true ∧
    getDisplayNameVis [("Arthropoda", ⟨"Arthropods", "Jointed-leg animals"⟩)] []
        "Arthropoda" "phylum" ≠ "Arthropods" ++ " (" ++ "Arthropoda" ++ ")" := by
  constructor
  · rfl
  · decide

/-- C7 amended: both display-name resolvers are total; in the
taxonomy-tree variant the level is ignored and a present nonempty common
name yields "common (scientific)", absence yields the scientific name; in
the kingdom/phylum details variant that format applies only at species
level, a phylum entry yields the bare common name, and every other level
returns the scientific name unchanged. -/
theorem displayName_resolution :
    (∀ (cn : List (String × String)) (name level cm : String),
      jsLookup cn name = some cm → cm ≠ "" →
        getDisplayName cn name level = cm ++ " (" ++ name ++ ")") ∧
    (∀ (cn : List (String × String)) (name level : String),
      jsLookup cn name = none → getDisplayName cn name level = name) ∧
    (∀ (ph sp : List (String × CommonNameEntry)) (name : String) (e : CommonNameEntry),
      jsLookup sp name = some e →
        getDisplayNameVis ph sp name "species" = e.common_name ++ " (" ++ name ++ ")") ∧
    (∀ (ph sp : List (String × CommonNameEntry)) (name : String) (e : CommonNameEntry),
      jsLookup ph name = some e → getDisplayNameVis ph sp name "phylum" = e.common_name) ∧
    (∀ (ph sp : List (String × CommonNameEntry)) (name ty : String),
      ty ≠ "phylum" → ty ≠ "species" → getDisplayNameVis ph sp name ty = name) := by
  refine ⟨?_, ?_, ?_, ?_, ?_⟩
  · intro cn name level cm h hne
    unfold getDisplayName
    rw [h]
    dsimp only
    rw [if_neg (by simpa using hne)]
  · intro cn name level h
    unfold getDisplayName
    rw [h]
  · intro ph sp name e h
    unfold getDisplayNameVis
    rw [if_neg (by decide), if_pos (by decide), h]
  · intro ph sp name e h
    unfold getDisplayNameVis
    rw [if_pos (by decide), h]
  · intro ph sp name ty hph hsp
    unfold getDisplayNameVis
    rw [if_neg (by simpa using hph), if_neg (by simpa using hsp)]

/-- Witness for C7 at the specification's example: a present common-name
entry yields "Sea Gooseberry (Pleurobrachia pileus)" and an absent one
returns the scientific name unchanged. -/
theorem displayName_resolution_witness :
    getDisplayName [("Pleurobrachia pileus", "Sea Gooseberry")]
        "Pleurobrachia pileus" "species"
      = "Sea Gooseberry" ++ " (" ++ "Pleurobrachia pileus" ++ ")" ∧
    getDisplayName [] "Pleurobrachia pileus" "species" = "Pleurobrachia pileus" :=
  ⟨displayName_resolution.1 [("Pleurobrachia pileus", "Sea Gooseberry")]
      "Pleurobrachia pileus" "species" "Sea Gooseberry" (by decide) (by decide),
   displayName_resolution.2.1 [] "Pleurobrachia pileus" "species" rfl⟩

/-- C8: when the parent record cannot be found in the level above, the
total used by `renderTaxonomicLevel` falls back to the sum of the
available children's occurrence counts (and the computation returns a
value rather than failing). -/
theorem renderFallback (td : TaxonomyData) (level : String) (p pl : String)
    (data : List TaxonRecord)
    (hpl : getPreviousLevel level = some pl)
    (hfind : (getTable td pl).find? (fun d => d.name == p) = none) :
    totalOccurrencesUsed td level (some p) data = sumOccurrences data := by
  unfold totalOccurrencesUsed
  rw [hpl]
  dsimp only
  rw [hfind]

/-- Witness for C8: a parent missing from the phylum table makes the
class-level render total the sum 3 + 4 of the available children. -/
theorem renderFallback_witness :
    totalOccurrencesUsed [("phylum", [⟨"A", some "K", 10, 0⟩])] "class" (some "Missing")
      [⟨"c1", some "Missing", 3, 0⟩, ⟨"c2", some "Missing", 4, 0⟩] = 7 := by
  rw [renderFallback [("phylum", [⟨"A", some "K", 10, 0⟩])] "class" "Missing" "phylum"
    [⟨"c1", some "Missing", 3, 0⟩, ⟨"c2", some "Missing", 4, 0⟩] (by decide) (by decide)]
  decide

lemma toggle_preserves_none {st : ExpState} {k : String}
    (hk : jsLookup st k = none) (level' name' : String) (c' : Int)
    (hne : keyOf level' name' ≠ k) :
    jsLookup (toggleExpansion st level' name' c') k = none := by
  by_cases hT : jsTruthy (jsLookup st (keyOf level' name')) = true
  · simp only [toggleExpansion]
    rw [if_pos hT]
    exact jsLookup_filter_none _ hk
  · rw [toggleExpansion_expand_eq st level' name' c' (Bool.eq_false_iff.mpr hT)]
    rw [jsLookup_append_single_ne hne]
    exact jsLookup_filter_none _ hk

lemma toggle_preserves_other_value {st : ExpState} {k : String} {v : Int}
    (hnd : (st.map Prod.fst).Nodup) (hv : jsLookup st k = some v)
    (level' name' : String) (c' : Int) (hne : keyOf level' name' ≠ k) :
    jsLookup (toggleExpansion st level' name' c') k = some v ∨
    jsLookup (toggleExpansion st level' name' c') k = none := by
  by_cases hT : jsTruthy (jsLookup st (keyOf level' name')) = true
  · simp only [toggleExpansion]
    rw [if_pos hT]
    exact jsLookup_filter_of_nodup _ hnd hv
  · rw [toggleExpansion_expand_eq st level' name' c' (Bool.eq_false_iff.mpr hT)]
    rw [jsLookup_append_single_ne hne]
    exact jsLookup_filter_of_nodup _ hnd hv

lemma runToggles_preserves_none {k : String} :
    ∀ (ops : List (String × String × Int)) (st : ExpState),
      jsLookup st k = none → (∀ op ∈ ops, keyOf op.1 op.2.1 ≠ k) →
      jsLookup (runToggles ops st) k = none := by
  intro ops
  induction ops with
  | nil =>
    intro st hk _
    exact hk
  | cons op rest ih =>
    intro st hk hall
    exact ih _ (toggle_preserves_none hk op.1 op.2.1 op.2.2
        (hall op (List.mem_cons_self _ _)))
      (fun o ho => hall o (List.mem_cons_of_mem _ ho))

lemma runToggles_preserves_value {k : String} {v : Int} :
    ∀ (ops : List (String × String × Int)) (st : ExpState),
      Reachable st → jsLookup st k = some v →
      (∀ op ∈ ops, keyOf op.1 op.2.1 ≠ k) →
      jsLookup (runToggles ops st) k = some v ∨
      jsLookup (runToggles ops st) k = none := by
  intro ops
  induction ops with
  | nil =>
    intro st _ hv _
    exact Or.inl hv
  | cons op rest ih =>
    intro st hR hv hall
    have hnd := (reachable_oneMax_nodup hR).2
    have hstep := toggle_preserves_other_value hnd hv op.1 op.2.1 op.2.2
      (hall op (List.mem_cons_self _ _))
    have hRnext : Reachable (toggleExpansion st op.1 op.2.1 op.2.2) :=
      Reachable.step st op.1 op.2.1 op.2.2 hR
    rcases hstep with h | h
    · exact ih _ hRnext h (fun o ho => hall o (List.mem_cons_of_mem _ ho))
    · exact Or.inr (runToggles_preserves_none rest _ h
        (fun o ho => hall o (List.mem_cons_of_mem _ ho)))

/-- C9: for an expanded node whose record carries a nonzero count and
whose expansion entry stores the truthy click-time total `v`, the
percentage-of-parent label value is the node's recorded occurrence count
divided by `v` times 100; and the stored click-time total is never changed
by later toggles of other nodes (an entry either keeps its value or is
removed, in which case no label is shown). -/
theorem percentageOfParent_clickTime (td : TaxonomyData) (st : ExpState)
    (level parent pl : String) (data : List TaxonRecord) (pr : TaxonRecord) (v : Int)
    (hR : Reachable st)
    (hpl : getPreviousLevel level = some pl)
    (hpr : (getTable td pl).find? (fun d => d.name == parent) = some pr)
    (hc : pr.occurrence_count ≠ 0)
    (hv : jsLookup st (keyOf pl parent) = some v) (hv0 : v ≠ 0) :
    percentageOfParentVal st level parent
        (totalOccurrencesUsed td level (some parent) data) =
      some ((pr.occurrence_count : ℚ) / (v : ℚ) * 100) ∧
    ∀ ops : List (String × String × Int),
      (∀ op ∈ ops, keyOf op.1 op.2.1 ≠ keyOf pl parent) →
      jsLookup (runToggles ops st) (keyOf pl parent) = some v ∨
      jsLookup (runToggles ops st) (keyOf pl parent) = none := by
  constructor
  · have htot : totalOccurrencesUsed td level (some parent) data = pr.occurrence_count := by
      unfold totalOccurrencesUsed
      rw [hpl]
      dsimp only
      rw [hpr]
      dsimp only
      rw [if_neg hc]
    rw [htot]
    unfold percentageOfParentVal
    rw [hpl]
    dsimp only
    rw [hv]
    dsimp only
    rw [if_pos hv0]
  · intro ops hall
    exact runToggles_preserves_value ops st hR hv hall

/-- Witness for C9: with Arthropoda recorded at 500 and a click-time total
of 1000 stored in the expansion state, the label value is 50 percent, and
a later kingdom toggle leaves the stored total either intact or removed. -/
theorem percentageOfParent_clickTime_witness :
    percentageOfParentVal [("phylum:Arthropoda", (1000 : Int))] "class" "Arthropoda"
        (totalOccurrencesUsed [("phylum", [⟨"Arthropoda", some "Animalia", 500, 0⟩])]
          "class" (some "Arthropoda") []) =
      some ((((500 : Int) : ℚ)) / (((1000 : Int) : ℚ)) * 100) ∧
    (jsLookup (runToggles [("kingdom", "Animalia", 2000)]
        [("phylum:Arthropoda", (1000 : Int))]) (keyOf "phylum" "Arthropoda") =
          some 1000 ∨
     jsLookup (runToggles [("kingdom", "Animalia", 2000)]
        [("phylum:Arthropoda", (1000 : Int))]) (keyOf "phylum" "Arthropoda") = none) := by
  have hR : Reachable [("phylum:Arthropoda", (1000 : Int))] := by
    have h := Reachable.step [] "phylum" "Arthropoda" 1000 Reachable.empty
    have he : toggleExpansion [] "phylum" "Arthropoda" 1000 =
        [("phylum:Arthropoda", (1000 : Int))] := by decide
    rw [he] at h
    exact h
  have h := percentageOfParent_clickTime
    [("phylum", [⟨"Arthropoda", some "Animalia", 500, 0⟩])]
    [("phylum:Arthropoda", (1000 : Int))]
    "class" "Arthropoda" "phylum" [] ⟨"Arthropoda", some "Animalia", 500, 0⟩ 1000
    hR (by decide) (by decide) (by decide) (by decide) (by decide)
  exact ⟨h.1, h.2 [("kingdom", "Animalia", 2000)] (by decide)⟩

lemma getTermColor_fst_of_lookup {scheme : List String} {st : ColorState} {t : String}
    {v : Option String} (h : jsLookup st.termColors t = some v) :
    (getTermColor scheme st t).1 = v := by
  unfold getTermColor
  rw [h]

lemma getTermColor_lookup_after (scheme : List String) (st : ColorState) (t : String) :
    jsLookup ((getTermColor scheme st t).2).termColors t =
      some ((getTermColor scheme st t).1) := by
  unfold getTermColor
  cases h : jsLookup st.termColors t with
  | some v =>
    dsimp only
    exact h
  | none =>
    dsimp only
    rw [jsMapSet_eq_append h, jsLookup_append_of_none h]
    simp [jsLookup]

lemma getTermColor_preserves (scheme : List String) (st : ColorState) (u t : String)
    {v : Option String} (hv : jsLookup st.termColors t = some v) :
    jsLookup ((getTermColor scheme st u).2).termColors t = some v := by
  unfold getTermColor
  cases h : jsLookup st.termColors u with
  | some w =>
    dsimp only
    exact hv
  | none =>
    dsimp only
    have hne : u ≠ t := by
      intro he
      rw [he, hv] at h
      cases h
    rw [jsMapSet_eq_append h, jsLookup_append_single_ne hne]
    exact hv

lemma runTermColorCalls_preserves (scheme : List String) (t : String) {v : Option String} :
    ∀ (ops : List String) (st : ColorState), jsLookup st.termColors t = some v →
      jsLookup (runTermColorCalls scheme ops st).termColors t = some v := by
  intro ops
  induction ops with
  | nil =>
    intro st hv
    exact hv
  | cons u rest ih =>
    intro st hv
    exact ih _ (getTermColor_preserves scheme st u t hv)

/-- C10: color assignment is stable within a session: once a term has been
queried and returned a color, every later query of the same term, after
any interleaved sequence of queries for other (or the same) terms, returns
that same color. -/
theorem getTermColor_stable (scheme : List String) (st : ColorState) (t : String)
    (ops : List String) :
    (getTermColor scheme (runTermColorCalls scheme ops (getTermColor scheme st t).2) t).1 =
      (getTermColor scheme st t).1 :=
  getTermColor_fst_of_lookup
    (runTermColorCalls_preserves scheme t ops _ (getTermColor_lookup_after scheme st t))

lemma logDomain_pos : (0 : ℝ) < Real.log 100 - Real.log 0.01 := by
  have h := Real.log_lt_log (by norm_num : (0 : ℝ) < 0.01) (by norm_num : (0.01 : ℝ) < 100)
  linarith

lemma mappedWidth_mono {W total : ℝ} (hW : 0 ≤ W) (htot : 0 < total)
    {a b : ℝ} (h : b ≤ a) : mappedWidth W total b ≤ mappedWidth W total a := by
  unfold mappedWidth d3LogScaleClamped
  set pa := max (0.01 : ℝ) (min 100 (max 0.01 (a / total * 100))) with hpa
  set pb := max (0.01 : ℝ) (min 100 (max 0.01 (b / total * 100))) with hpb
  have hple : pb ≤ pa := by
    apply max_le_max le_rfl
    apply min_le_min le_rfl
    apply max_le_max le_rfl
    have hdiv : b / total ≤ a / total := (div_le_div_iff_of_pos_right htot).mpr h
    nlinarith
  have hpb_pos : (0 : ℝ) < pb := lt_of_lt_of_le (by norm_num) (le_max_left _ _)
  have hlog : Real.log pb ≤ Real.log pa := Real.log_le_log hpb_pos hple
  have hD := logDomain_pos
  dsimp only
  rw [div_le_div_iff_of_pos_right hD]
  apply mul_le_mul_of_nonneg_left _ hW
  linarith

/-- C6 counterexample: with a positive total (100000) and a non-empty
child list (one child of count 1), every percentage clamps to the 0.01
domain floor, the mapped widths all map to 0, and the rescaled segment
widths sum to 0, not to the available width 100. -/
theorem logWidths_counterexample :
    (0 : ℝ) < 100000 ∧ ([(1 : ℝ)] ≠ []) ∧
    (([(1 : ℝ)]).map (segmentWidth 100 100000 [(1 : ℝ)])).sum ≠ 100 := by
  refine ⟨by norm_num, by simp, ?_⟩
  have hm : mappedWidth 100 100000 1 = 0 := by
    unfold mappedWidth d3LogScaleClamped
    have h1 : (1 : ℝ) / 100000 * 100 = 0.001 := by norm_num
    rw [h1]
    have h2 : max (0.01 : ℝ) 0.001 = 0.01 := max_eq_left (by norm_num)
    rw [h2]
    have h3 : min (100 : ℝ) 0.01 = 0.01 := min_eq_right (by norm_num)
    have h4 : max (0.01 : ℝ) (min 100 0.01) = 0.01 := by
      rw [h3]
      exact max_self _
    dsimp only
    rw [h4]
    simp
  have hseg : segmentWidth 100 100000 [(1 : ℝ)] 1 = 0 := by
    unfold segmentWidth
    rw [hm]
    ring
  rw [List.map_singleton, hseg]
  norm_num

/-- C6 amended: whenever the mapped-width sum is positive (some child's
clamped percentage exceeds the 0.01 domain floor) and the available width
is nonnegative, the rescaled logarithmic segment widths sum exactly to the
available width and preserve the descending occurrence-count order of the
children. -/
theorem logWidths_sum_and_order (W total : ℝ) (counts : List ℝ)
    (hW : 0 ≤ W) (htot : 0 < total)
    (hsum : 0 < totalLogWidth W total counts) :
    (counts.map (segmentWidth W total counts)).sum = W ∧
    (counts.Pairwise (fun a b => b ≤ a) →
      (counts.map (segmentWidth W total counts)).Pairwise (fun a b => b ≤ a)) := by
  constructor
  · unfold segmentWidth
    rw [List.sum_map_mul_right]
    show totalLogWidth W total counts * (W / totalLogWidth W total counts) = W
    rw [mul_comm, div_mul_cancel₀ W (ne_of_gt hsum)]
  · intro hord
    have hfac : 0 ≤ W / totalLogWidth W total counts := div_nonneg hW (le_of_lt hsum)
    apply hord.map
    intro a b hab
    unfold segmentWidth
    exact mul_le_mul_of_nonneg_right (mappedWidth_mono hW htot hab) hfac

/-- Witness for C6 at one child of count 2 with total 2 and width 100: the
single segment spans the full available width. -/
theorem logWidths_sum_and_order_witness :
    (([(2 : ℝ)]).map (segmentWidth 100 2 [(2 : ℝ)])).sum = 100 := by
  have hmv : mappedWidth 100 2 2 = 100 := by
    unfold mappedWidth d3LogScaleClamped
    have h1 : (2 : ℝ) / 2 * 100 = 100 := by norm_num
    rw [h1]
    have h2 : max (0.01 : ℝ) 100 = 100 := max_eq_right (by norm_num)
    rw [h2]
    have h3 : min (100 : ℝ) 100 = 100 := min_self _
    have h4 : max (0.01 : ℝ) (min 100 100) = 100 := by
      rw [h3]
      exact max_eq_right (by norm_num)
    dsimp only
    rw [h4, mul_div_assoc, div_self (ne_of_gt logDomain_pos), mul_one]
  have hsum : (0 : ℝ) < totalLogWidth 100 2 [(2 : ℝ)] := by
    unfold totalLogWidth
    rw [List.map_singleton, List.sum_singleton, hmv]
    norm_num
  exact (logWidths_sum_and_order 100 2 [(2 : ℝ)] (by norm_num) (by norm_num) hsum).1
